import Mathlib

/-
Verification of the Fractal repository (fractal.hpp / newton.cpp):
thread-range partitioning of a sampling grid, Newton's-method fractal
sampling, and nearest-root assignment. C++ machine doubles are modelled
as real numbers; the IEEE value `infinity` returned by `newton_root` on
non-convergence is modelled by `Option` (with `none` standing for an
infinite component), and the C `int` sentinel `INT_MAX` by the integer
constant `intMax`.
-/

namespace Fractal

/-- `INT_MAX`, the sentinel `std::numeric_limits<int>::max()` written to
`itr_taken` / `limit` on non-convergence (32-bit int). -/
def intMax : ℤ := 2 ^ 31 - 1

/-- `iteration_limits num_threads yresolution` (fractal.hpp, lines 27-58):
with `span = yresolution / num_threads` (integer division), writes
`span*0, span*1, ..., span*(num_threads-1)` and then `yresolution` to the
output range.  Modelled as the list of written values. -/
def iteration_limits (num_threads yresolution : ℕ) : List ℕ :=
  (List.range num_threads).map (fun itr => yresolution / num_threads * itr) ++ [yresolution]

/-- The boundary at index `i` of `iteration_limits` (for `i ≤ num_threads`). -/
def limitVal (num_threads yresolution i : ℕ) : ℕ :=
  if i < num_threads then yresolution / num_threads * i else yresolution

lemma iteration_limits_length (nt yres : ℕ) :
    (iteration_limits nt yres).length = nt + 1 := by
  simp [iteration_limits]

lemma iteration_limits_getD (nt yres i : ℕ) (hi : i ≤ nt) :
    (iteration_limits nt yres).getD i 0 = limitVal nt yres i := by
  rcases lt_or_eq_of_le hi with h | h
  · rw [iteration_limits, limitVal, if_pos h, List.getD_append _ _ _ _ (by simpa using h)]
    simp [List.getD_eq_getElem?_getD, h]
  · subst h
    rw [iteration_limits, limitVal, if_neg (lt_irrefl _), List.getD_append_right _ _ _ _ (by simp)]
    simp

lemma limitVal_mono (nt yres : ℕ) {i j : ℕ} (hij : i ≤ j) (hj : j ≤ nt) :
    limitVal nt yres i ≤ limitVal nt yres j := by
  unfold limitVal
  by_cases hjlt : j < nt
  · rw [if_pos (lt_of_le_of_lt hij hjlt), if_pos hjlt]
    exact Nat.mul_le_mul_left _ hij
  · rw [if_neg hjlt]
    by_cases hilt : i < nt
    · rw [if_pos hilt]
      calc yres / nt * i ≤ yres / nt * nt := Nat.mul_le_mul_left _ (le_of_lt hilt)
        _ ≤ yres := Nat.div_mul_le_self yres nt
    · rw [if_neg hilt]

lemma limitVal_le (nt yres : ℕ) (i : ℕ) : limitVal nt yres i ≤ yres := by
  unfold limitVal
  by_cases h : i < nt
  · rw [if_pos h]
    calc yres / nt * i ≤ yres / nt * nt := Nat.mul_le_mul_left _ (le_of_lt h)
      _ ≤ yres := Nat.div_mul_le_self yres nt
  · rw [if_neg h]

/-- Existence half of the partition-coverage property: every row index
`y < yresolution` lies in some interval `[limitVal i, limitVal (i+1))`. -/
lemma limitVal_cover (nt yres : ℕ) (hnt : 1 ≤ nt) {y : ℕ} (hy : y < yres) :
    ∃ i, i < nt ∧ limitVal nt yres i ≤ y ∧ y < limitVal nt yres (i + 1) := by
  set span := yres / nt with hspan
  by_cases hsp : span = 0
  · refine ⟨nt - 1, Nat.sub_lt hnt one_pos, ?_, ?_⟩
    · rw [limitVal, if_pos (Nat.sub_lt hnt one_pos), ← hspan, hsp, zero_mul]
      exact Nat.zero_le y
    · rw [Nat.sub_add_cancel hnt, limitVal, if_neg (lt_irrefl _)]
      exact hy
  · have hsppos : 0 < span := Nat.pos_of_ne_zero hsp
    by_cases hcase : y / span ≤ nt - 1
    · refine ⟨y / span, lt_of_le_of_lt hcase (Nat.sub_lt hnt one_pos), ?_, ?_⟩
      · rw [limitVal, if_pos (lt_of_le_of_lt hcase (Nat.sub_lt hnt one_pos)), ← hspan]
        calc span * (y / span) = y / span * span := Nat.mul_comm _ _
          _ ≤ y := Nat.div_mul_le_self y span
      · unfold limitVal
        by_cases hlast : y / span + 1 < nt
        · rw [if_pos hlast, ← hspan, Nat.mul_comm]
          exact (Nat.div_lt_iff_lt_mul hsppos).mp (Nat.lt_succ_self (y / span))
        · rw [if_neg hlast]
          exact hy
    · push_neg at hcase
      refine ⟨nt - 1, Nat.sub_lt hnt one_pos, ?_, ?_⟩
      · rw [limitVal, if_pos (Nat.sub_lt hnt one_pos), ← hspan]
        calc span * (nt - 1) ≤ span * (y / span) := Nat.mul_le_mul_left _ (le_of_lt hcase)
          _ = y / span * span := Nat.mul_comm _ _
          _ ≤ y := Nat.div_mul_le_self y span
      · rw [Nat.sub_add_cancel hnt, limitVal, if_neg (lt_irrefl _)]
        exact hy

/-- Uniqueness half: the interval containing `y` is unique. -/
lemma limitVal_cover_unique (nt yres : ℕ) {y i j : ℕ}
    (hi : i < nt ∧ limitVal nt yres i ≤ y ∧ y < limitVal nt yres (i + 1))
    (hj' : j < nt ∧ limitVal nt yres j ≤ y ∧ y < limitVal nt yres (j + 1)) : i = j := by
  by_contra hne
  rcases Nat.lt_or_ge i j with h | h
  · have : limitVal nt yres (i + 1) ≤ limitVal nt yres j :=
      limitVal_mono nt yres (Nat.succ_le_of_lt h) (le_of_lt hj'.1)
    exact absurd (lt_of_lt_of_le hi.2.2 (le_trans this hj'.2.1)) (lt_irrefl y)
  · have hlt : j < i := lt_of_le_of_ne h (Ne.symm hne)
    have : limitVal nt yres (j + 1) ≤ limitVal nt yres i :=
      limitVal_mono nt yres (Nat.succ_le_of_lt hlt) (le_of_lt hi.1)
    exact absurd (lt_of_lt_of_le hj'.2.2 (le_trans this hi.2.1)) (lt_irrefl y)

/-- C1: for `num_threads ≥ 1` and `yresolution ≥ 1`, `iteration_limits`
outputs exactly `num_threads + 1` boundary values
`0, span, 2*span, ..., (num_threads-1)*span, yresolution` with
`span = yresolution / num_threads`; the sequence is non-decreasing, starts
at `0`, ends at `yresolution`, and the consecutive half-open intervals are
pairwise disjoint and jointly cover `[0, yresolution)` (expressed as: each
`y < yresolution` lies in exactly one interval). -/
theorem c1_iteration_limits_partition (nt yres : ℕ) (hnt : 1 ≤ nt) (hyres : 1 ≤ yres) :
    (iteration_limits nt yres).length = nt + 1 ∧
    (∀ i, i < nt → (iteration_limits nt yres).getD i 0 = yres / nt * i) ∧
    (iteration_limits nt yres).getD nt 0 = yres ∧
    (iteration_limits nt yres).getD 0 0 = 0 ∧
    (∀ i, i < nt → (iteration_limits nt yres).getD i 0 ≤ (iteration_limits nt yres).getD (i + 1) 0) ∧
    (∀ y, y < yres → ∃! i, i < nt ∧ (iteration_limits nt yres).getD i 0 ≤ y ∧
        y < (iteration_limits nt yres).getD (i + 1) 0) := by
  have hlen := iteration_limits_length nt yres
  have hget : ∀ i, i ≤ nt → (iteration_limits nt yres).getD i 0 = limitVal nt yres i :=
    fun i hi => iteration_limits_getD nt yres i hi
  refine ⟨hlen, ?_, ?_, ?_, ?_, ?_⟩
  · intro i hi
    rw [hget i (le_of_lt hi), limitVal, if_pos hi]
  · rw [hget nt le_rfl, limitVal, if_neg (lt_irrefl _)]
  · rw [hget 0 (Nat.zero_le _), limitVal, if_pos (show 0 < nt from hnt), Nat.mul_zero]
  · intro i hi
    rw [hget i (le_of_lt hi), hget (i + 1) hi]
    exact limitVal_mono nt yres (Nat.le_succ i) hi
  · intro y hy
    obtain ⟨i, hilt, hle, hlt⟩ := limitVal_cover nt yres hnt hy
    refine ⟨i, ⟨hilt, ?_, ?_⟩, ?_⟩
    · rw [hget i (le_of_lt hilt)]; exact hle
    · rw [hget (i + 1) hilt]; exact hlt
    · intro j hj
      rw [hget j (le_of_lt hj.1), hget (j + 1) hj.1] at hj
      exact limitVal_cover_unique nt yres hj ⟨hilt, hle, hlt⟩

/-- Witness for C1 at `num_threads = 2`, `yresolution = 5`. -/
theorem c1_iteration_limits_partition_witness :
    1 ≤ 2 ∧ 1 ≤ 5 ∧
    ((iteration_limits 2 5).length = 2 + 1 ∧
    (∀ i, i < 2 → (iteration_limits 2 5).getD i 0 = 5 / 2 * i) ∧
    (iteration_limits 2 5).getD 2 0 = 5 ∧
    (iteration_limits 2 5).getD 0 0 = 0 ∧
    (∀ i, i < 2 → (iteration_limits 2 5).getD i 0 ≤ (iteration_limits 2 5).getD (i + 1) 0) ∧
    (∀ y, y < 5 → ∃! i, i < 2 ∧ (iteration_limits 2 5).getD i 0 ≤ y ∧
        y < (iteration_limits 2 5).getD (i + 1) 0)) :=
  ⟨by decide, by decide, c1_iteration_limits_partition 2 5 (by decide) (by decide)⟩

/-- `polynomial_and_deriv x coeffs degree` (newton.cpp, lines 14-26):
one Horner pass from the highest coefficient down, first updating
`p_prime = x*p_prime + p` (with the old `p`), then `p = x*p + coeffs[itr]`.
The C array `coeffs` is modelled as a function `ℕ → ℝ`; the result is the
pair `(p, p_prime)`. -/
noncomputable def polynomial_and_deriv (x : ℂ) (coeffs : ℕ → ℝ) (degree : ℕ) : ℂ × ℂ :=
  (List.range degree).reverse.foldl
    (fun st itr => (x * st.1 + (coeffs itr : ℂ), x * st.2 + st.1))
    (((coeffs degree : ℝ) : ℂ), 0)

lemma polynomial_and_deriv_succ (x : ℂ) (coeffs : ℕ → ℝ) (d : ℕ) :
    polynomial_and_deriv x coeffs (d + 1) =
      (x * (polynomial_and_deriv x (fun i => coeffs (i + 1)) d).1 + (coeffs 0 : ℂ),
       x * (polynomial_and_deriv x (fun i => coeffs (i + 1)) d).2 +
         (polynomial_and_deriv x (fun i => coeffs (i + 1)) d).1) := by
  unfold polynomial_and_deriv
  rw [List.range_succ_eq_map, List.reverse_cons, ← List.map_reverse, List.foldl_append,
    List.foldl_map]
  simp

/-- Horner-pass correctness: `polynomial_and_deriv` returns the pair of the
polynomial value `∑ coeffs i * x^i` (for `i ≤ degree`) and the derivative
value `∑ (i+1) * coeffs (i+1) * x^i` (for `i < degree`). -/
lemma polynomial_and_deriv_eq (x : ℂ) (coeffs : ℕ → ℝ) (degree : ℕ) :
    polynomial_and_deriv x coeffs degree =
      (∑ i ∈ Finset.range (degree + 1), (coeffs i : ℂ) * x ^ i,
       ∑ i ∈ Finset.range degree, ((i : ℂ) + 1) * (coeffs (i + 1) : ℂ) * x ^ i) := by
  induction degree generalizing coeffs with
  | zero => simp [polynomial_and_deriv]
  | succ d ih =>
    rw [polynomial_and_deriv_succ, ih]
    simp only [Prod.mk.injEq]
    constructor
    · rw [Finset.sum_range_succ' (fun i => (coeffs i : ℂ) * x ^ i) (d + 1), Finset.mul_sum]
      rw [Finset.sum_congr rfl (fun i _ => by ring :
        ∀ i ∈ Finset.range (d + 1),
          x * ((coeffs (i + 1) : ℂ) * x ^ i) = (coeffs (i + 1) : ℂ) * x ^ (i + 1))]
      simp
    · rw [Finset.sum_range_succ'
        (fun i => ((i : ℂ) + 1) * (coeffs (i + 1) : ℂ) * x ^ i) d,
        Finset.sum_range_succ' (fun i => (coeffs (i + 1) : ℂ) * x ^ i) d, Finset.mul_sum]
      rw [add_left_comm, ← add_assoc, ← Finset.sum_add_distrib]
      rw [Finset.sum_congr rfl (fun i _ => by push_cast; ring :
        ∀ i ∈ Finset.range d,
          (coeffs (i + 1 + 1) : ℂ) * x ^ (i + 1) +
            x * (((i : ℂ) + 1) * (coeffs (i + 1 + 1) : ℂ) * x ^ i) =
          (((i + 1 : ℕ) : ℂ) + 1) * (coeffs (i + 1 + 1) : ℂ) * x ^ (i + 1))]
      push_cast
      ring_nf
      simp

/-- C3: `polynomial_and_deriv` returns `(p(x), p'(x))` for the polynomial with
coefficients `coeffs[0..degree]` (`coeffs i` the coefficient of `x^i`),
computed in one Horner pass; in particular on `coeffs = [0, 0, 1]` at `x = 3`
it returns `(9, 6)`. -/
theorem c3_polynomial_and_deriv_horner :
    (∀ (x : ℂ) (coeffs : ℕ → ℝ) (degree : ℕ),
      polynomial_and_deriv x coeffs degree =
        (∑ i ∈ Finset.range (degree + 1), (coeffs i : ℂ) * x ^ i,
         ∑ i ∈ Finset.range degree, ((i : ℂ) + 1) * (coeffs (i + 1) : ℂ) * x ^ i)) ∧
    polynomial_and_deriv 3 (fun i => if i = 2 then 1 else 0) 2 = (9, 6) := by
  refine ⟨polynomial_and_deriv_eq, ?_⟩
  rw [polynomial_and_deriv_eq]
  simp [Finset.sum_range_succ]
  norm_num

/-- Loop body of `newton_root` (newton.cpp, lines 32-49), by recursion on the
remaining iteration budget `fuel` with current loop counter `itr` and current
point `x`.  The order of the two tests matches the source: convergence
(`abs(f_x) < tol`) first, then exact zero derivative (`g_x == 0`). -/
noncomputable def newton_rootAux (coeffs : ℕ → ℝ) (degree : ℕ) (tol : ℝ) :
    ℕ → ℕ → ℂ → Option ℂ × ℤ
  | 0, _, _ => (none, intMax)
  | fuel + 1, itr, x =>
    if Complex.abs (polynomial_and_deriv x coeffs degree).1 < tol then (some x, (itr : ℤ))
    else if (polynomial_and_deriv x coeffs degree).2 = 0 then (none, intMax)
    else newton_rootAux coeffs degree tol fuel (itr + 1)
      (x - (polynomial_and_deriv x coeffs degree).1 / (polynomial_and_deriv x coeffs degree).2)

/-- `newton_root` (newton.cpp, lines 28-52).  The C++ out-parameter
`itr_taken` is modelled as the second component of the result; the returned
point `(infinity, infinity)` of the non-convergence paths is modelled as
`none`, a converged point `x` as `some x`. -/
noncomputable def newton_root (coeffs : ℕ → ℝ) (x : ℂ) (degree max_itr : ℕ) (tol : ℝ) :
    Option ℂ × ℤ :=
  newton_rootAux coeffs degree tol max_itr 0 x

/-- One Newton update `x - f/g` as performed by the loop (applied only where
the derivative is nonzero). -/
noncomputable def newtonStep (coeffs : ℕ → ℝ) (degree : ℕ) (x : ℂ) : ℂ :=
  x - (polynomial_and_deriv x coeffs degree).1 / (polynomial_and_deriv x coeffs degree).2

/-- The sequence of points visited by the `newton_root` loop. -/
noncomputable def newtonSeq (coeffs : ℕ → ℝ) (degree : ℕ) (x0 : ℂ) (k : ℕ) : ℂ :=
  (newtonStep coeffs degree)^[k] x0

/-- The convergence test of the loop: `abs(f_x) < tol`. -/
def newtonConv (coeffs : ℕ → ℝ) (degree : ℕ) (tol : ℝ) (x : ℂ) : Prop :=
  Complex.abs (polynomial_and_deriv x coeffs degree).1 < tol

/-- The degenerate-step test of the loop: `g_x == 0` exactly. -/
def newtonDerivZero (coeffs : ℕ → ℝ) (degree : ℕ) (x : ℂ) : Prop :=
  (polynomial_and_deriv x coeffs degree).2 = 0

lemma newton_rootAux_succ (coeffs : ℕ → ℝ) (degree : ℕ) (tol : ℝ) (fuel itr : ℕ) (x : ℂ) :
    newton_rootAux coeffs degree tol (fuel + 1) itr x =
      if Complex.abs (polynomial_and_deriv x coeffs degree).1 < tol then (some x, (itr : ℤ))
      else if (polynomial_and_deriv x coeffs degree).2 = 0 then (none, intMax)
      else newton_rootAux coeffs degree tol fuel (itr + 1) (newtonStep coeffs degree x) := by
  rfl

lemma newtonSeq_zero (coeffs : ℕ → ℝ) (degree : ℕ) (x0 : ℂ) :
    newtonSeq coeffs degree x0 0 = x0 := rfl

lemma newtonSeq_shift (coeffs : ℕ → ℝ) (degree : ℕ) (x0 : ℂ) (j : ℕ) :
    newtonSeq coeffs degree (newtonStep coeffs degree x0) j = newtonSeq coeffs degree x0 (j + 1) := by
  unfold newtonSeq
  rw [Function.iterate_succ_apply]

/-- Full characterization of the `newton_root` loop: it either converges at
the first iterate satisfying the tolerance test, stops at the first iterate
with an exactly-zero derivative, or exhausts its budget; the returned counter
is `itr + k` in the converged case and `intMax` otherwise. -/
lemma newton_rootAux_trichotomy (coeffs : ℕ → ℝ) (degree : ℕ) (tol : ℝ) :
    ∀ (fuel itr : ℕ) (x : ℂ),
      (∃ k, k < fuel ∧
        (∀ j, j < k → ¬ newtonConv coeffs degree tol (newtonSeq coeffs degree x j) ∧
            ¬ newtonDerivZero coeffs degree (newtonSeq coeffs degree x j)) ∧
        newtonConv coeffs degree tol (newtonSeq coeffs degree x k) ∧
        newton_rootAux coeffs degree tol fuel itr x =
          (some (newtonSeq coeffs degree x k), ((itr + k : ℕ) : ℤ))) ∨
      (∃ k, k < fuel ∧
        (∀ j, j < k → ¬ newtonConv coeffs degree tol (newtonSeq coeffs degree x j) ∧
            ¬ newtonDerivZero coeffs degree (newtonSeq coeffs degree x j)) ∧
        ¬ newtonConv coeffs degree tol (newtonSeq coeffs degree x k) ∧
        newtonDerivZero coeffs degree (newtonSeq coeffs degree x k) ∧
        newton_rootAux coeffs degree tol fuel itr x = (none, intMax)) ∨
      ((∀ j, j < fuel → ¬ newtonConv coeffs degree tol (newtonSeq coeffs degree x j) ∧
            ¬ newtonDerivZero coeffs degree (newtonSeq coeffs degree x j)) ∧
        newton_rootAux coeffs degree tol fuel itr x = (none, intMax)) := by
  intro fuel
  induction fuel with
  | zero =>
    intro itr x
    exact Or.inr (Or.inr ⟨fun j hj => absurd hj (Nat.not_lt_zero j), rfl⟩)
  | succ fuel ih =>
    intro itr x
    by_cases hc : Complex.abs (polynomial_and_deriv x coeffs degree).1 < tol
    · refine Or.inl ⟨0, Nat.succ_pos fuel, fun j hj => absurd hj (Nat.not_lt_zero j), ?_, ?_⟩
      · rw [newtonSeq_zero]; exact hc
      · rw [newtonSeq_zero, newton_rootAux_succ, if_pos hc, Nat.add_zero]
    · by_cases hd : (polynomial_and_deriv x coeffs degree).2 = 0
      · refine Or.inr (Or.inl ⟨0, Nat.succ_pos fuel, fun j hj => absurd hj (Nat.not_lt_zero j),
          ?_, ?_, ?_⟩)
        · rw [newtonSeq_zero]; exact hc
        · rw [newtonSeq_zero]; exact hd
        · rw [newton_rootAux_succ, if_neg hc, if_pos hd]
      · have hstep : ∀ j, newtonSeq coeffs degree (newtonStep coeffs degree x) j =
            newtonSeq coeffs degree x (j + 1) := newtonSeq_shift coeffs degree x
        have hzero : ∀ j, j < 1 → ¬ newtonConv coeffs degree tol (newtonSeq coeffs degree x j) ∧
            ¬ newtonDerivZero coeffs degree (newtonSeq coeffs degree x j) := by
          intro j hj
          interval_cases j
          exact ⟨hc, hd⟩
        have heq : newton_rootAux coeffs degree tol (fuel + 1) itr x =
            newton_rootAux coeffs degree tol fuel (itr + 1) (newtonStep coeffs degree x) := by
          rw [newton_rootAux_succ, if_neg hc, if_neg hd]
        rcases ih (itr + 1) (newtonStep coeffs degree x) with
          ⟨k, hk, hprev, hconv, hres⟩ | ⟨k, hk, hprev, hnconv, hdz, hres⟩ | ⟨hall, hres⟩
        · refine Or.inl ⟨k + 1, Nat.succ_lt_succ hk, ?_, ?_, ?_⟩
          · intro j hj
            rcases j with _ | j
            · exact hzero 0 one_pos
            · rw [← hstep j]
              exact hprev j (Nat.lt_of_succ_lt_succ hj)
          · rw [← hstep k]; exact hconv
          · rw [heq, hres, hstep k]
            congr 1
            push_cast
            ring
        · refine Or.inr (Or.inl ⟨k + 1, Nat.succ_lt_succ hk, ?_, ?_, ?_, ?_⟩)
          · intro j hj
            rcases j with _ | j
            · exact hzero 0 one_pos
            · rw [← hstep j]
              exact hprev j (Nat.lt_of_succ_lt_succ hj)
          · rw [← hstep k]; exact hnconv
          · rw [← hstep k]; exact hdz
          · rw [heq]; exact hres
        · refine Or.inr (Or.inr ⟨?_, ?_⟩)
          · intro j hj
            rcases j with _ | j
            · exact hzero 0 one_pos
            · rw [← hstep j]
              exact hall j (Nat.lt_of_succ_lt_succ hj)
          · rw [heq]; exact hres

/-- C2: for every coefficient array, starting point, degree, `max_itr` and
`tol`, `newton_root` has exactly three outcomes: convergence at some
iteration `k < max_itr` (returning the current point with iteration output
`k`), an exactly-zero derivative before convergence (iteration output set to
`INT_MAX`, point `(infinity, infinity)`, modelled `none`), or exhaustion of
the budget (same sentinel); no outcome is an error. -/
theorem c2_newton_root_three_outcomes (coeffs : ℕ → ℝ) (x0 : ℂ)
    (degree max_itr : ℕ) (tol : ℝ) :
    (∃ k, k < max_itr ∧
      (∀ j, j < k → ¬ newtonConv coeffs degree tol (newtonSeq coeffs degree x0 j) ∧
          ¬ newtonDerivZero coeffs degree (newtonSeq coeffs degree x0 j)) ∧
      newtonConv coeffs degree tol (newtonSeq coeffs degree x0 k) ∧
      newton_root coeffs x0 degree max_itr tol =
        (some (newtonSeq coeffs degree x0 k), (k : ℤ))) ∨
    (∃ k, k < max_itr ∧
      (∀ j, j < k → ¬ newtonConv coeffs degree tol (newtonSeq coeffs degree x0 j) ∧
          ¬ newtonDerivZero coeffs degree (newtonSeq coeffs degree x0 j)) ∧
      ¬ newtonConv coeffs degree tol (newtonSeq coeffs degree x0 k) ∧
      newtonDerivZero coeffs degree (newtonSeq coeffs degree x0 k) ∧
      newton_root coeffs x0 degree max_itr tol = (none, intMax)) ∨
    ((∀ j, j < max_itr → ¬ newtonConv coeffs degree tol (newtonSeq coeffs degree x0 j) ∧
          ¬ newtonDerivZero coeffs degree (newtonSeq coeffs degree x0 j)) ∧
      newton_root coeffs x0 degree max_itr tol = (none, intMax)) := by
  have h := newton_rootAux_trichotomy coeffs degree tol max_itr 0 x0
  simpa [newton_root, Nat.zero_add] using h

/-- C10: within each iteration of `newton_root` the convergence test precedes
the zero-derivative test: if the starting point already satisfies
`abs(f) < tol` (and at least one iteration is allowed), the function returns
that point with iteration output `0`, regardless of the derivative there; and
if the derivative is exactly zero at a starting point with `abs(f) ≥ tol`,
the zero-derivative sentinel is produced. -/
theorem c10_convergence_test_precedes_deriv_test (coeffs : ℕ → ℝ) (x0 : ℂ)
    (degree max_itr : ℕ) (tol : ℝ) (hmax : 1 ≤ max_itr) :
    (Complex.abs (polynomial_and_deriv x0 coeffs degree).1 < tol →
      newton_root coeffs x0 degree max_itr tol = (some x0, (0 : ℤ))) ∧
    ((polynomial_and_deriv x0 coeffs degree).2 = 0 →
      ¬ Complex.abs (polynomial_and_deriv x0 coeffs degree).1 < tol →
      newton_root coeffs x0 degree max_itr tol = (none, intMax)) := by
  obtain ⟨fuel, rfl⟩ : ∃ fuel, max_itr = fuel + 1 :=
    ⟨max_itr - 1, (Nat.sub_add_cancel hmax).symm⟩
  constructor
  · intro hconv
    rw [newton_root, newton_rootAux_succ, if_pos hconv]
    rfl
  · intro hdz hnconv
    rw [newton_root, newton_rootAux_succ, if_neg hnconv, if_pos hdz]

/-- Witness for C10 at the zero polynomial (degree 0, all coefficients 0),
`x0 = 0`, `max_itr = 1`, `tol = 1`: here the derivative is exactly zero and
yet the loop converges immediately with iteration output `0`. -/
theorem c10_convergence_test_precedes_deriv_test_witness :
    1 ≤ 1 ∧
    ((Complex.abs (polynomial_and_deriv 0 (fun _ => (0 : ℝ)) 0).1 < 1 →
      newton_root (fun _ => (0 : ℝ)) 0 0 1 1 = (some 0, (0 : ℤ))) ∧
    ((polynomial_and_deriv 0 (fun _ => (0 : ℝ)) 0).2 = 0 →
      ¬ Complex.abs (polynomial_and_deriv 0 (fun _ => (0 : ℝ)) 0).1 < 1 →
      newton_root (fun _ => (0 : ℝ)) 0 0 1 1 = (none, intMax))) :=
  ⟨le_rfl, c10_convergence_test_precedes_deriv_test (fun _ => (0 : ℝ)) 0 0 1 1 le_rfl⟩

/-- One pixel's slot across the three Newton output buffers `re`, `im`,
`iterations` (three separate caller-owned arrays in the source, indexed by the
same pair, so modelled as one map of triples): stored real part and imaginary
part (`none` models a double holding `infinity`), and stored iteration count. -/
structure NewtonCell where
  re : Option ℝ
  im : Option ℝ
  itr : ℤ

/-- Pointwise update of a row-major buffer at one index pair. -/
def upd2 {α : Type} (f : ℕ → ℕ → α) (r c : ℕ) (v : α) : ℕ → ℕ → α :=
  fun i j => if i = r ∧ j = c then v else f i j

/-- The value `compute_newton_range` stores at row `itr`, column `jtr`: run
`newton_root` at the plane coordinate
`(startx + deltax*jtr, starty + deltay*itr)` with `tol = 1e-6` and keep the
real part, the imaginary part, and the iteration count. -/
noncomputable def newtonCell (coeffs : ℕ → ℝ) (degree max_itr : ℕ)
    (startx starty deltax deltay : ℝ) (itr jtr : ℕ) : NewtonCell :=
  let root := newton_root coeffs ⟨startx + deltax * jtr, starty + deltay * itr⟩
    degree max_itr 1e-6
  ⟨Option.map Complex.re root.1, Option.map Complex.im root.1, root.2⟩

/-- `compute_newton_range` (newton.cpp, lines 54-70): for each row
`itr ∈ [start_itr, end_itr)` and column `jtr ∈ [0, xresolution)`, write the
Newton result for that pixel into the buffers (the `total`/`verbose` logging
parameters affect only `stdout` and are omitted). -/
noncomputable def compute_newton_range (coeffs : ℕ → ℝ)
    (max_itr degree xresolution start_itr end_itr : ℕ)
    (startx starty deltax deltay : ℝ) (b : ℕ → ℕ → NewtonCell) : ℕ → ℕ → NewtonCell :=
  (List.range' start_itr (end_itr - start_itr)).foldl
    (fun bi itr => (List.range xresolution).foldl
      (fun bj jtr =>
        upd2 bj itr jtr (newtonCell coeffs degree max_itr startx starty deltax deltay itr jtr))
      bi) b

lemma foldl_upd2_range {α : Type} (w : ℕ → α) (r : ℕ) :
    ∀ (n : ℕ) (f0 : ℕ → ℕ → α),
      (List.range n).foldl (fun f c => upd2 f r c (w c)) f0 =
        fun i j => if i = r ∧ j < n then w j else f0 i j := by
  intro n
  induction n with
  | zero =>
    intro f0
    funext i j
    simp
  | succ n ih =>
    intro f0
    rw [List.range_succ, List.foldl_append, ih, List.foldl_cons, List.foldl_nil]
    funext i j
    simp only [upd2]
    by_cases hi : i = r
    · subst hi
      simp only [eq_self_iff_true, true_and]
      by_cases hj : j = n
      · subst hj
        simp [Nat.lt_succ_self]
      · rw [if_neg hj]
        by_cases hlt : j < n
        · rw [if_pos hlt, if_pos (by omega)]
        · rw [if_neg hlt, if_neg (by omega)]
    · simp only [hi, false_and, if_false]

lemma foldl_rows_upd2 {α : Type} (w : ℕ → ℕ → α) (xres : ℕ) :
    ∀ (n s : ℕ) (f0 : ℕ → ℕ → α),
      (List.range' s n).foldl
          (fun f r => (List.range xres).foldl (fun g c => upd2 g r c (w r c)) f) f0 =
        fun i j => if s ≤ i ∧ i < s + n ∧ j < xres then w i j else f0 i j := by
  intro n
  induction n with
  | zero =>
    intro s f0
    funext i j
    simp only [List.range', List.foldl_nil]
    rw [if_neg (by omega)]
  | succ n ih =>
    intro s f0
    rw [List.range'_succ, List.foldl_cons, ih]
    simp only [foldl_upd2_range]
    funext i j
    by_cases hj : j < xres
    · by_cases hrow : s + 1 ≤ i ∧ i < s + 1 + n
      · rw [if_pos ⟨hrow.1, hrow.2, hj⟩, if_pos (by omega)]
      · have h1 : ¬(s + 1 ≤ i ∧ i < s + 1 + n ∧ j < xres) := by omega
        rw [if_neg h1]
        by_cases hs : i = s
        · subst hs
          rw [if_pos ⟨rfl, hj⟩, if_pos (by omega)]
        · have h2 : ¬(i = s ∧ j < xres) := fun h => hs h.1
          have h3 : ¬(s ≤ i ∧ i < s + (n + 1) ∧ j < xres) := by omega
          rw [if_neg h2, if_neg h3]
    · have h1 : ¬(s + 1 ≤ i ∧ i < s + 1 + n ∧ j < xres) := by omega
      have h2 : ¬(i = s ∧ j < xres) := fun h => hj h.2
      have h3 : ¬(s ≤ i ∧ i < s + (n + 1) ∧ j < xres) := by omega
      rw [if_neg h1, if_neg h2, if_neg h3]

/-- Characterization of `compute_newton_range`: pixels inside the half-open
row range and the column range receive their Newton value; every other buffer
element is left unchanged. -/
lemma compute_newton_range_spec (coeffs : ℕ → ℝ)
    (max_itr degree xresolution start_itr end_itr : ℕ)
    (startx starty deltax deltay : ℝ) (b : ℕ → ℕ → NewtonCell) (r c : ℕ) :
    compute_newton_range coeffs max_itr degree xresolution start_itr end_itr
        startx starty deltax deltay b r c =
      if start_itr ≤ r ∧ r < end_itr ∧ c < xresolution
      then newtonCell coeffs degree max_itr startx starty deltax deltay r c
      else b r c := by
  rw [compute_newton_range, foldl_rows_upd2]
  show (if start_itr ≤ r ∧ r < start_itr + (end_itr - start_itr) ∧ c < xresolution
      then newtonCell coeffs degree max_itr startx starty deltax deltay r c
      else b r c) =
    if start_itr ≤ r ∧ r < end_itr ∧ c < xresolution
      then newtonCell coeffs degree max_itr startx starty deltax deltay r c
      else b r c
  split_ifs with h1 h2 <;> first | rfl | omega

/-- C4: for every row `r ∈ [start_itr, end_itr)` and column
`c ∈ [0, xresolution)`, `compute_newton_range` runs `newton_root` with
tolerance `1e-6` at the plane coordinate
`(startx + deltax*c, starty + deltay*r)` and stores its real part, imaginary
part and iteration count at `[r][c]`; no other buffer element is written. -/
theorem c4_compute_newton_range_writes (coeffs : ℕ → ℝ)
    (max_itr degree xresolution start_itr end_itr : ℕ)
    (startx starty deltax deltay : ℝ) (b : ℕ → ℕ → NewtonCell) (r c : ℕ) :
    compute_newton_range coeffs max_itr degree xresolution start_itr end_itr
        startx starty deltax deltay b r c =
      (if start_itr ≤ r ∧ r < end_itr ∧ c < xresolution
       then ⟨Option.map Complex.re
              (newton_root coeffs ⟨startx + deltax * c, starty + deltay * r⟩
                degree max_itr 1e-6).1,
             Option.map Complex.im
              (newton_root coeffs ⟨startx + deltax * c, starty + deltay * r⟩
                degree max_itr 1e-6).1,
             (newton_root coeffs ⟨startx + deltax * c, starty + deltay * r⟩
                degree max_itr 1e-6).2⟩
       else b r c) := by
  rw [compute_newton_range_spec]
  rfl

/-- The consecutive increment pairs the `sample_newton` loop iterates over
(newton.cpp, lines 82-88): for each `itr < increments.size() - 1` one thread
is launched on `(increments[itr], increments[itr+1])`.  Each list entry is
one launched `RangeWorker`. -/
def worker_intervals (num_threads yresolution : ℕ) : List (ℕ × ℕ) :=
  (iteration_limits num_threads yresolution).zip
    (iteration_limits num_threads yresolution).tail

/-- `sample_newton` (newton.cpp, lines 72-101): derive `deltax`/`deltay`,
obtain the increments, run one `compute_newton_range` per consecutive
increment pair, and finally set the out-parameter `limit` to `INT_MAX`
(modelled as the second component).  The concurrent workers are modelled by
sequential composition, which is value-faithful because every write depends
only on its own pixel coordinates. -/
noncomputable def sample_newton (coeffs : ℕ → ℝ)
    (max_itr num_threads degree xresolution yresolution : ℕ)
    (startx endx starty endy : ℝ) (b : ℕ → ℕ → NewtonCell) :
    (ℕ → ℕ → NewtonCell) × ℤ :=
  ((worker_intervals num_threads yresolution).foldl
    (fun bi p => compute_newton_range coeffs max_itr degree xresolution p.1 p.2
      startx starty ((endx - startx) / (xresolution : ℝ))
      ((endy - starty) / (yresolution : ℝ)) bi) b,
   intMax)

/-- C7: on every call, regardless of inputs, `sample_newton` sets its output
status parameter `limit` to the fixed sentinel `INT_MAX`. -/
theorem c7_sample_newton_limit_sentinel (coeffs : ℕ → ℝ)
    (max_itr num_threads degree xresolution yresolution : ℕ)
    (startx endx starty endy : ℝ) (b : ℕ → ℕ → NewtonCell) :
    (sample_newton coeffs max_itr num_threads degree xresolution yresolution
      startx endx starty endy b).2 = intMax := rfl

/-- C6 counterexample: with `num_threads = 3` and `yresolution = 1` the
increments are `[0, 0, 0, 1]`, giving worker intervals
`[(0,0), (0,0), (0,1)]`: the loop launches 3 workers although only 1
interval is non-degenerate, so the number of launched workers is not the
number of non-degenerate intervals. -/
theorem c6_counterexample_workers_for_degenerate_intervals :
    (worker_intervals 3 1).length ≠
      ((worker_intervals 3 1).filter (fun p => p.1 != p.2)).length := by
  decide

/-- C6 amended: `sample_newton` launches exactly one `RangeWorker` per
interval produced by the partitioner — `num_threads` workers, degenerate
(empty) intervals included; a worker whose interval is empty
(`start == end`) performs no buffer writes, and empty intervals cause no
error. -/
theorem c6_one_worker_per_interval (nt yres : ℕ) (coeffs : ℕ → ℝ)
    (max_itr degree xres s : ℕ) (startx starty deltax deltay : ℝ)
    (b : ℕ → ℕ → NewtonCell) :
    (worker_intervals nt yres).length = nt ∧
    compute_newton_range coeffs max_itr degree xres s s
      startx starty deltax deltay b = b := by
  constructor
  · rw [worker_intervals, List.length_zip, List.length_tail, iteration_limits_length]
    omega
  · rw [compute_newton_range, Nat.sub_self]
    rfl

lemma foldl_compute_ranges (coeffs : ℕ → ℝ) (max_itr degree xres : ℕ)
    (sx sy dx dy : ℝ) :
    ∀ (L : List (ℕ × ℕ)) (b : ℕ → ℕ → NewtonCell) (i j : ℕ),
      (L.foldl (fun bi p => compute_newton_range coeffs max_itr degree xres
          p.1 p.2 sx sy dx dy bi) b) i j =
        if (∃ p ∈ L, p.1 ≤ i ∧ i < p.2) ∧ j < xres
        then newtonCell coeffs degree max_itr sx sy dx dy i j
        else b i j := by
  intro L
  induction L with
  | nil =>
    intro b i j
    rw [List.foldl_nil, if_neg]
    simp
  | cons p L ih =>
    intro b i j
    rw [List.foldl_cons, ih, compute_newton_range_spec]
    by_cases hj : j < xres
    · by_cases hA : ∃ q ∈ L, q.1 ≤ i ∧ i < q.2
      · have hcons : ∃ q ∈ p :: L, q.1 ≤ i ∧ i < q.2 := by
          obtain ⟨q, hq, hqi⟩ := hA
          exact ⟨q, List.mem_cons_of_mem p hq, hqi⟩
        rw [if_pos ⟨hA, hj⟩, if_pos ⟨hcons, hj⟩]
      · rw [if_neg (fun h => hA h.1)]
        by_cases hp : p.1 ≤ i ∧ i < p.2
        · have hcons : ∃ q ∈ p :: L, q.1 ≤ i ∧ i < q.2 :=
            ⟨p, List.mem_cons_self p L, hp⟩
          rw [if_pos ⟨hp.1, hp.2, hj⟩, if_pos ⟨hcons, hj⟩]
        · have hncons : ¬∃ q ∈ p :: L, q.1 ≤ i ∧ i < q.2 := by
            rintro ⟨q, hq, hqi⟩
            rcases List.mem_cons.mp hq with rfl | hqL
            · exact hp hqi
            · exact hA ⟨q, hqL, hqi⟩
          have h1 : ¬(p.1 ≤ i ∧ i < p.2 ∧ j < xres) := fun h => hp ⟨h.1, h.2.1⟩
          rw [if_neg h1, if_neg (fun h => hncons h.1)]
    · have h1 : ¬((∃ q ∈ L, q.1 ≤ i ∧ i < q.2) ∧ j < xres) := fun h => hj h.2
      have h2 : ¬(p.1 ≤ i ∧ i < p.2 ∧ j < xres) := fun h => hj h.2.2
      have h3 : ¬((∃ q ∈ p :: L, q.1 ≤ i ∧ i < q.2) ∧ j < xres) := fun h => hj h.2
      rw [if_neg h1, if_neg h2, if_neg h3]

lemma worker_intervals_length (nt yres : ℕ) :
    (worker_intervals nt yres).length = nt := by
  rw [worker_intervals, List.length_zip, List.length_tail, iteration_limits_length]
  omega

lemma iteration_limits_getElem? (nt yres i : ℕ) (hi : i ≤ nt) :
    (iteration_limits nt yres)[i]? = some (limitVal nt yres i) := by
  have hlen := iteration_limits_length nt yres
  rw [List.getElem?_eq_getElem (by omega)]
  have h := iteration_limits_getD nt yres i hi
  rw [List.getD_eq_getElem _ _ (by omega)] at h
  exact congrArg some h

lemma worker_intervals_mem (nt yres k : ℕ) (hk : k < nt) :
    (limitVal nt yres k, limitVal nt yres (k + 1)) ∈ worker_intervals nt yres := by
  rw [List.mem_iff_getElem?]
  refine ⟨k, ?_⟩
  rw [worker_intervals, List.getElem?_zip_eq_some]
  refine ⟨iteration_limits_getElem? nt yres k (by omega), ?_⟩
  rw [List.getElem?_tail]
  exact iteration_limits_getElem? nt yres (k + 1) (by omega)

lemma worker_intervals_cover (nt yres : ℕ) (hnt : 1 ≤ nt) (i : ℕ) :
    (∃ p ∈ worker_intervals nt yres, p.1 ≤ i ∧ i < p.2) ↔ i < yres := by
  constructor
  · rintro ⟨p, hp, hle, hlt⟩
    have h2 : p.2 ∈ (iteration_limits nt yres).tail := by
      have := List.of_mem_zip (show (p.1, p.2) ∈ _ from hp)
      exact this.2
    have h3 : p.2 ∈ iteration_limits nt yres := List.mem_of_mem_tail h2
    have h4 : p.2 ≤ yres := by
      rw [iteration_limits] at h3
      rcases List.mem_append.mp h3 with h | h
      · obtain ⟨a, ha, heq⟩ := List.mem_map.mp h
        have ha2 : a < nt := List.mem_range.mp ha
        have hb : yres / nt * a ≤ yres := calc
          yres / nt * a ≤ yres / nt * nt := Nat.mul_le_mul_left _ (le_of_lt ha2)
          _ ≤ yres := Nat.div_mul_le_self yres nt
        omega
      · simp only [List.mem_singleton] at h
        omega
    omega
  · intro hi
    obtain ⟨k, hk, hle, hlt⟩ := limitVal_cover nt yres hnt hi
    exact ⟨(limitVal nt yres k, limitVal nt yres (k + 1)),
      worker_intervals_mem nt yres k hk, hle, hlt⟩

/-- C5: Newton sampling results are deterministic and independent of the
thread count: every in-grid pixel of the output buffer equals the Newton
value at its own plane coordinate (so identical inputs give identical
buffers), and two runs that differ only in `num_threads` (both ≥ 1) produce
identical output buffers. -/
theorem c5_sample_newton_thread_count_independent (coeffs : ℕ → ℝ)
    (max_itr degree xres yres : ℕ) (startx endx starty endy : ℝ)
    (b : ℕ → ℕ → NewtonCell) (nt1 nt2 : ℕ) (h1 : 1 ≤ nt1) (h2 : 1 ≤ nt2) :
    (∀ i j, (sample_newton coeffs max_itr nt1 degree xres yres
        startx endx starty endy b).1 i j =
      if i < yres ∧ j < xres
      then newtonCell coeffs degree max_itr startx starty
        ((endx - startx) / (xres : ℝ)) ((endy - starty) / (yres : ℝ)) i j
      else b i j) ∧
    (sample_newton coeffs max_itr nt1 degree xres yres
        startx endx starty endy b).1 =
      (sample_newton coeffs max_itr nt2 degree xres yres
        startx endx starty endy b).1 := by
  have key : ∀ nt, 1 ≤ nt → ∀ i j,
      (sample_newton coeffs max_itr nt degree xres yres
        startx endx starty endy b).1 i j =
      if i < yres ∧ j < xres
      then newtonCell coeffs degree max_itr startx starty
        ((endx - startx) / (xres : ℝ)) ((endy - starty) / (yres : ℝ)) i j
      else b i j := by
    intro nt hnt i j
    rw [sample_newton]
    simp only [foldl_compute_ranges]
    by_cases hj : j < xres
    · by_cases hcov : ∃ p ∈ worker_intervals nt yres, p.1 ≤ i ∧ i < p.2
      · rw [if_pos ⟨hcov, hj⟩,
          if_pos ⟨(worker_intervals_cover nt yres hnt i).mp hcov, hj⟩]
      · rw [if_neg (fun h => hcov h.1), if_neg]
        intro h
        exact hcov ((worker_intervals_cover nt yres hnt i).mpr h.1)
    · rw [if_neg (fun h => hj h.2), if_neg (fun h => hj h.2)]
  refine ⟨key nt1 h1, ?_⟩
  funext i j
  rw [key nt1 h1 i j, key nt2 h2 i j]

/-- Witness for C5 at `num_threads` 1 versus 2 on a 1×1 grid. -/
theorem c5_sample_newton_thread_count_independent_witness :
    1 ≤ 1 ∧ 1 ≤ 2 ∧
    ((∀ i j, (sample_newton (fun _ => (0 : ℝ)) 1 1 0 1 1 0 1 0 1
        (fun _ _ => ⟨some 0, some 0, 0⟩)).1 i j =
      if i < 1 ∧ j < 1
      then newtonCell (fun _ => (0 : ℝ)) 0 1 0 0 ((1 - 0) / ((1 : ℕ) : ℝ))
        ((1 - 0) / ((1 : ℕ) : ℝ)) i j
      else (fun _ _ => (⟨some 0, some 0, 0⟩ : NewtonCell)) i j) ∧
    (sample_newton (fun _ => (0 : ℝ)) 1 1 0 1 1 0 1 0 1
        (fun _ _ => ⟨some 0, some 0, 0⟩)).1 =
      (sample_newton (fun _ => (0 : ℝ)) 1 2 0 1 1 0 1 0 1
        (fun _ _ => ⟨some 0, some 0, 0⟩)).1) :=
  ⟨le_rfl, by omega,
    c5_sample_newton_thread_count_independent (fun _ => (0 : ℝ)) 1 0 1 1 0 1 0 1
      (fun _ _ => ⟨some 0, some 0, 0⟩) 1 2 le_rfl (by omega)⟩

/-- Modelled from the spec: the Mandelbrot point iterator `iterate` is only
declared in fractal.hpp (line 123); its definition is not under src.  Per the
spec (section 4.1), iterate `x ← x² + c` and return the iteration count `k`
the first time `abs x > 2`, or `max_itr` if no escape occurs within the
bound.  `iterateAux` tests the escape threshold before each update, by
recursion on the remaining budget. -/
noncomputable def iterateAux (c : ℂ) : ℕ → ℂ → ℕ
  | 0, _ => 0
  | fuel + 1, x => if 2 < Complex.abs x then 0 else iterateAux c fuel (x ^ 2 + c) + 1

/-- Modelled from the spec: entry point of the Mandelbrot point iterator
(called with `x = 0` on the sampled coordinate `c`). -/
noncomputable def iterate (x : ℂ) (c : ℂ) (max_itr : ℕ) : ℕ :=
  iterateAux c max_itr x

/-- The orbit of the quadratic map `z ↦ z² + c`. -/
noncomputable def mandelOrbit (c x : ℂ) (n : ℕ) : ℂ :=
  (fun z => z ^ 2 + c)^[n] x

lemma iterateAux_succ (c : ℂ) (fuel : ℕ) (x : ℂ) :
    iterateAux c (fuel + 1) x =
      if 2 < Complex.abs x then 0 else iterateAux c fuel (x ^ 2 + c) + 1 := rfl

lemma mandelOrbit_zero (c x : ℂ) : mandelOrbit c x 0 = x := rfl

lemma mandelOrbit_shift (c x : ℂ) (j : ℕ) :
    mandelOrbit c (x ^ 2 + c) j = mandelOrbit c x (j + 1) := by
  unfold mandelOrbit
  rw [Function.iterate_succ_apply]

lemma iterateAux_spec (c : ℂ) :
    ∀ (fuel : ℕ) (x : ℂ),
      iterateAux c fuel x ≤ fuel ∧
      (∀ j, j < iterateAux c fuel x → ¬ 2 < Complex.abs (mandelOrbit c x j)) ∧
      (iterateAux c fuel x < fuel →
        2 < Complex.abs (mandelOrbit c x (iterateAux c fuel x))) := by
  intro fuel
  induction fuel with
  | zero =>
    intro x
    exact ⟨le_rfl, fun j hj => absurd hj (Nat.not_lt_zero j),
      fun h => absurd h (lt_irrefl 0)⟩
  | succ fuel ih =>
    intro x
    rw [iterateAux_succ]
    by_cases h : 2 < Complex.abs x
    · rw [if_pos h]
      exact ⟨Nat.zero_le _, fun j hj => absurd hj (Nat.not_lt_zero j),
        fun _ => by rw [mandelOrbit_zero]; exact h⟩
    · rw [if_neg h]
      obtain ⟨h1, h2, h3⟩ := ih (x ^ 2 + c)
      refine ⟨Nat.succ_le_succ h1, ?_, ?_⟩
      · intro j hj
        rcases j with _ | j
        · rw [mandelOrbit_zero]; exact h
        · rw [← mandelOrbit_shift]
          exact h2 j (Nat.lt_of_succ_lt_succ hj)
      · intro hlt
        rw [← mandelOrbit_shift]
        exact h3 (Nat.lt_of_succ_lt_succ hlt)

lemma iterateAux_zero_orbit : ∀ fuel : ℕ, iterateAux 0 fuel 0 = fuel := by
  intro fuel
  induction fuel with
  | zero => rfl
  | succ fuel ih =>
    rw [iterateAux_succ, if_neg (by rw [map_zero]; norm_num)]
    have e : (0 : ℂ) ^ 2 + 0 = 0 := by ring
    rw [e, ih]

/-- C8: the Mandelbrot point iterator iterates `x ← x² + c` from `x = 0` and
returns the count of the first escape (`abs x > 2`), or `max_itr` if none
occurs; hence the count is always in `[0, max_itr]`, `c = 0` returns exactly
`max_itr`, and `c = 2+2i` escapes with the small count `1`. -/
theorem c8_mandelbrot_iterate_bounded :
    (∀ (c : ℂ) (max_itr : ℕ),
      iterate 0 c max_itr ≤ max_itr ∧
      (∀ j, j < iterate 0 c max_itr → ¬ 2 < Complex.abs (mandelOrbit c 0 j)) ∧
      (iterate 0 c max_itr < max_itr →
        2 < Complex.abs (mandelOrbit c 0 (iterate 0 c max_itr)))) ∧
    (∀ max_itr : ℕ, iterate 0 0 max_itr = max_itr) ∧
    iterate 0 ⟨2, 2⟩ 2 = 1 := by
  refine ⟨fun c max_itr => iterateAux_spec c max_itr 0, iterateAux_zero_orbit, ?_⟩
  have habs : 2 < Complex.abs ⟨2, 2⟩ := by
    rw [Complex.abs_apply, Complex.normSq_mk]
    rw [show (2 : ℝ) * 2 + 2 * 2 = 8 by norm_num]
    rw [show (2 : ℝ) = Real.sqrt 4 by
      rw [show (4 : ℝ) = 2 ^ 2 by norm_num, Real.sqrt_sq (by norm_num)]]
    exact Real.sqrt_lt_sqrt (by norm_num) (by norm_num)
  show iterateAux ⟨2, 2⟩ (1 + 1) 0 = 1
  rw [iterateAux_succ, if_neg (by rw [map_zero]; norm_num)]
  have e : (0 : ℂ) ^ 2 + ⟨2, 2⟩ = ⟨2, 2⟩ := by ring
  rw [e, iterateAux_succ, if_pos habs]

/-- The `std::min_element` scan underlying `argmin` (fractal.hpp, lines
98-120): walk the remaining range keeping the current best value, its index,
and the index of the element under examination; the best is replaced exactly
when a later element compares strictly smaller under `comp`. -/
def minElemIdx {α : Type} (comp : α → α → Prop) [DecidableRel comp] :
    List α → α → ℕ → ℕ → ℕ
  | [], _, bestIdx, _ => bestIdx
  | a :: rest, best, bestIdx, curIdx =>
    if comp a best then minElemIdx comp rest a curIdx (curIdx + 1)
    else minElemIdx comp rest best bestIdx (curIdx + 1)

/-- `argmin` (fractal.hpp, lines 98-120):
`std::min_element(first, last, comp) - first`, the index of the first minimal
element of the range under `comp` (0 on an empty range). -/
def argmin {α : Type} (comp : α → α → Prop) [DecidableRel comp] : List α → ℕ
  | [] => 0
  | a :: rest => minElemIdx comp rest a 0 1

lemma minElemIdx_cons {α : Type} (comp : α → α → Prop) [DecidableRel comp]
    (a : α) (rest : List α) (best : α) (bestIdx curIdx : ℕ) :
    minElemIdx comp (a :: rest) best bestIdx curIdx =
      if comp a best then minElemIdx comp rest a curIdx (curIdx + 1)
      else minElemIdx comp rest best bestIdx (curIdx + 1) := rfl

lemma getD_mem (l : List ℝ) (j : ℕ) (hj : j < l.length) : l.getD j 0 ∈ l := by
  rw [List.getD_eq_getElem _ _ hj]
  exact List.getElem_mem hj

lemma minElemIdx_spec :
    ∀ (l : List ℝ) (best : ℝ) (bestIdx curIdx : ℕ),
      (minElemIdx (· < ·) l best bestIdx curIdx = bestIdx ∧
        ∀ a ∈ l, ¬ a < best) ∨
      (∃ m, m < l.length ∧
        minElemIdx (· < ·) l best bestIdx curIdx = curIdx + m ∧
        l.getD m 0 < best ∧
        (∀ j, j < l.length → ¬ l.getD j 0 < l.getD m 0) ∧
        (∀ j, j < m → l.getD m 0 < l.getD j 0)) := by
  intro l
  induction l with
  | nil =>
    intro best bestIdx curIdx
    exact Or.inl ⟨rfl, by simp⟩
  | cons a rest ih =>
    intro best bestIdx curIdx
    rw [minElemIdx_cons]
    by_cases ha : a < best
    · rw [if_pos ha]
      rcases ih a curIdx (curIdx + 1) with ⟨heq, hall⟩ | ⟨m, hm, heq, hlt, hmin, hfirst⟩
      · refine Or.inr ⟨0, Nat.succ_pos _, by rw [heq, Nat.add_zero], ha, ?_, ?_⟩
        · intro j hj
          rcases j with _ | j
          · exact lt_irrefl a
          · exact hall _ (getD_mem rest j (by simpa using hj))
        · intro j hj
          exact absurd hj (Nat.not_lt_zero j)
      · refine Or.inr ⟨m + 1, Nat.succ_lt_succ hm, by rw [heq]; omega,
          lt_trans hlt ha, ?_, ?_⟩
        · intro j hj
          rcases j with _ | j
          · exact lt_asymm hlt
          · exact hmin j (by simpa using hj)
        · intro j hj
          rcases j with _ | j
          · exact hlt
          · exact hfirst j (Nat.lt_of_succ_lt_succ hj)
    · rw [if_neg ha]
      rcases ih best bestIdx (curIdx + 1) with ⟨heq, hall⟩ | ⟨m, hm, heq, hlt, hmin, hfirst⟩
      · refine Or.inl ⟨heq, ?_⟩
        intro b hb
        rcases List.mem_cons.mp hb with rfl | hbr
        · exact ha
        · exact hall b hbr
      · refine Or.inr ⟨m + 1, Nat.succ_lt_succ hm, by rw [heq]; omega, hlt, ?_, ?_⟩
        · intro j hj
          rcases j with _ | j
          · exact lt_asymm (lt_of_lt_of_le hlt (not_lt.mp ha))
          · exact hmin j (by simpa using hj)
        · intro j hj
          rcases j with _ | j
          · exact lt_of_lt_of_le hlt (not_lt.mp ha)
          · exact hfirst j (Nat.lt_of_succ_lt_succ hj)

/-- `argmin` under `<` returns the index of the first minimal element: the
index is in range, its element is `≤` every element, and `<` every earlier
element. -/
lemma argmin_first_min (l : List ℝ) (hl : l ≠ []) :
    argmin (· < ·) l < l.length ∧
    (∀ j, j < l.length → l.getD (argmin (· < ·) l) 0 ≤ l.getD j 0) ∧
    (∀ j, j < argmin (· < ·) l → l.getD (argmin (· < ·) l) 0 < l.getD j 0) := by
  obtain ⟨a, rest, rfl⟩ := List.exists_cons_of_ne_nil hl
  rw [show argmin (· < ·) (a :: rest) = minElemIdx (· < ·) rest a 0 1 from rfl]
  rcases minElemIdx_spec rest a 0 1 with ⟨heq, hall⟩ | ⟨m, hm, heq, hlt, hmin, hfirst⟩
  · rw [heq]
    refine ⟨Nat.succ_pos _, ?_, ?_⟩
    · intro j hj
      rcases j with _ | j
      · exact le_rfl
      · exact not_lt.mp (hall _ (getD_mem rest j (by simpa using hj)))
    · intro j hj
      exact absurd hj (Nat.not_lt_zero j)
  · rw [heq, show 1 + m = m + 1 from Nat.add_comm 1 m]
    refine ⟨Nat.succ_lt_succ hm, ?_, ?_⟩
    · intro j hj
      rcases j with _ | j
      · exact le_of_lt hlt
      · exact not_lt.mp (hmin j (by simpa using hj))
    · intro j hj
      rcases j with _ | j
      · exact hlt
      · exact hfirst j (Nat.lt_of_succ_lt_succ hj)

lemma getD_map_range (f : ℕ → ℝ) (n k : ℕ) (hk : k < n) :
    ((List.range n).map f).getD k 0 = f k := by
  rw [List.getD_eq_getElem _ _ (by simpa using hk)]
  simp

/-- Modelled from the spec: `assign_roots` is declared in fractal.hpp (lines
140-141) but its definition is not under src.  Per the spec (section 4.6),
for each pixel the Euclidean distance from its converged value
`(re[r][c], im[r][c])` to every root in the list is computed and the index of
the minimum-distance root recorded, ties broken by the first-encountered
(lowest) index — the `argmin` helper of fractal.hpp applied to the distance
list.  Modelled per pixel: the value written to `index[r][c]`. -/
noncomputable def assign_roots (re im : ℕ → ℕ → ℝ) (roots_re roots_im : ℕ → ℝ)
    (degree : ℕ) (r c : ℕ) : ℕ :=
  argmin (· < ·) ((List.range degree).map (fun k =>
    Real.sqrt ((re r c - roots_re k) ^ 2 + (im r c - roots_im k) ^ 2)))

lemma argmin_pair (x y : ℝ) (h : ¬ y < x) : argmin (· < ·) [x, y] = 0 := by
  rw [show argmin (· < ·) [x, y] = minElemIdx (· < ·) [y] x 0 1 from rfl,
    minElemIdx_cons, if_neg h]
  rfl

/-- C9: root assignment picks, for each pixel's converged value, the index of
the minimum-Euclidean-distance root, and among equal minimal distances the
lowest index (the argmin helper returns the first minimal element's index);
in particular value `1+0i` with roots `[1, -1]` gets index 0, and a value
equidistant between the two roots gets the lower index 0. -/
theorem c9_assign_roots_nearest_lowest_index :
    (∀ (re im : ℕ → ℕ → ℝ) (roots_re roots_im : ℕ → ℝ) (degree r c : ℕ),
      1 ≤ degree →
      assign_roots re im roots_re roots_im degree r c < degree ∧
      (∀ k, k < degree →
        Real.sqrt ((re r c -
              roots_re (assign_roots re im roots_re roots_im degree r c)) ^ 2 +
            (im r c -
              roots_im (assign_roots re im roots_re roots_im degree r c)) ^ 2) ≤
          Real.sqrt ((re r c - roots_re k) ^ 2 + (im r c - roots_im k) ^ 2)) ∧
      (∀ k, k < assign_roots re im roots_re roots_im degree r c →
        Real.sqrt ((re r c -
              roots_re (assign_roots re im roots_re roots_im degree r c)) ^ 2 +
            (im r c -
              roots_im (assign_roots re im roots_re roots_im degree r c)) ^ 2) <
          Real.sqrt ((re r c - roots_re k) ^ 2 + (im r c - roots_im k) ^ 2))) ∧
    assign_roots (fun _ _ => 1) (fun _ _ => 0)
      (fun k => if k = 0 then 1 else -1) (fun _ => 0) 2 0 0 = 0 ∧
    assign_roots (fun _ _ => 0) (fun _ _ => 0)
      (fun k => if k = 0 then 1 else -1) (fun _ => 0) 2 0 0 = 0 := by
  refine ⟨?_, ?_, ?_⟩
  · intro re im rre rim degree r c hdeg
    have hlen : ((List.range degree).map (fun k =>
        Real.sqrt ((re r c - rre k) ^ 2 + (im r c - rim k) ^ 2))).length = degree := by
      simp
    have hne : (List.range degree).map (fun k =>
        Real.sqrt ((re r c - rre k) ^ 2 + (im r c - rim k) ^ 2)) ≠ [] := by
      intro h
      rw [h] at hlen
      simp at hlen
      omega
    obtain ⟨h1, h2, h3⟩ := argmin_first_min _ hne
    rw [hlen] at h1
    refine ⟨h1, ?_, ?_⟩
    · intro k hk
      have h := h2 k (by rw [hlen]; exact hk)
      rw [getD_map_range _ _ _ h1, getD_map_range _ _ _ hk] at h
      exact h
    · intro k hk
      have hk2 : k < degree := lt_trans hk h1
      have h := h3 k hk
      rw [getD_map_range _ _ _ h1, getD_map_range _ _ _ hk2] at h
      exact h
  · have e : assign_roots (fun _ _ => 1) (fun _ _ => 0)
        (fun k => if k = 0 then 1 else -1) (fun _ => 0) 2 0 0 =
        argmin (· < ·) [Real.sqrt (((1 : ℝ) - 1) ^ 2 + ((0 : ℝ) - 0) ^ 2),
          Real.sqrt (((1 : ℝ) - -1) ^ 2 + ((0 : ℝ) - 0) ^ 2)] := rfl
    rw [e]
    apply argmin_pair
    rw [show ((1 : ℝ) - 1) ^ 2 + ((0 : ℝ) - 0) ^ 2 = 0 by norm_num, Real.sqrt_zero]
    exact not_lt.mpr (Real.sqrt_nonneg _)
  · have e : assign_roots (fun _ _ => 0) (fun _ _ => 0)
        (fun k => if k = 0 then 1 else -1) (fun _ => 0) 2 0 0 =
        argmin (· < ·) [Real.sqrt (((0 : ℝ) - 1) ^ 2 + ((0 : ℝ) - 0) ^ 2),
          Real.sqrt (((0 : ℝ) - -1) ^ 2 + ((0 : ℝ) - 0) ^ 2)] := rfl
    rw [e]
    apply argmin_pair
    rw [show ((0 : ℝ) - 1) ^ 2 + ((0 : ℝ) - 0) ^ 2 = 1 by norm_num,
      show ((0 : ℝ) - -1) ^ 2 + ((0 : ℝ) - 0) ^ 2 = 1 by norm_num]
    exact lt_irrefl _

/-- Witness for C9 at a single root list (`degree = 1`, all values zero). -/
theorem c9_assign_roots_nearest_lowest_index_witness :
    1 ≤ 1 ∧
    (assign_roots (fun _ _ => (0 : ℝ)) (fun _ _ => 0) (fun _ => 0) (fun _ => 0) 1 0 0 < 1 ∧
      (∀ k, k < 1 →
        Real.sqrt (((0 : ℝ) - 0) ^ 2 + ((0 : ℝ) - 0) ^ 2) ≤
          Real.sqrt (((0 : ℝ) - 0) ^ 2 + ((0 : ℝ) - 0) ^ 2)) ∧
      (∀ k, k < assign_roots (fun _ _ => (0 : ℝ)) (fun _ _ => 0)
          (fun _ => 0) (fun _ => 0) 1 0 0 →
        Real.sqrt (((0 : ℝ) - 0) ^ 2 + ((0 : ℝ) - 0) ^ 2) <
          Real.sqrt (((0 : ℝ) - 0) ^ 2 + ((0 : ℝ) - 0) ^ 2))) :=
  ⟨le_rfl, c9_assign_roots_nearest_lowest_index.1 (fun _ _ => 0) (fun _ _ => 0)
    (fun _ => 0) (fun _ => 0) 1 0 0 le_rfl⟩

end Fractal
